import Mathlib

/-!
Shallow embedding of the retrieval pipeline of the RAG-pdf-search-BE
repository (JavaScript), together with proofs about its behaviour.

Modelling conventions:
* JavaScript numbers are modelled as exact rationals (`ℚ`) extended with
  `NaN` and the two infinities (`JSNum`) wherever the code can produce a
  non-finite value (division by a zero maximum, `Math.max()` of an empty
  spread).  The sign of zero is not tracked.
* JavaScript strings are modelled as Lean `String`s / `List Char`,
  whitespace is `Char.isWhitespace`.
* `Map` objects (and plain objects used as dictionaries) are modelled as
  insertion-ordered association lists: `set` of an existing key updates the
  entry in place, `set` of a fresh key appends.
* `Array.prototype.sort` with the comparator `(a, b) => b.score - a.score`
  is modelled as a stable sort that puts `a` after `b` exactly when the
  comparator is positive, which agrees with the ECMAScript stable sort for
  every consistent comparator (and keeps the original order when the
  comparator yields `NaN`, as the engines do).
* The OpenAI collaborator is opaque: each function that calls it takes the
  collaborator's outcome as an explicit argument (`Except Unit (Option
  String)`: a thrown error, or a response whose `content` may be absent).
-/

/-- A JavaScript number: a finite rational, an infinity, or `NaN`. -/
inductive JSNum where
  | fin (q : ℚ)
  | posInf
  | negInf
  | nan
deriving DecidableEq, Repr

namespace JSNum

/-- JavaScript addition. -/
def add : JSNum → JSNum → JSNum
  | nan, _ => nan
  | _, nan => nan
  | posInf, negInf => nan
  | negInf, posInf => nan
  | posInf, _ => posInf
  | _, posInf => posInf
  | negInf, _ => negInf
  | _, negInf => negInf
  | fin a, fin b => fin (a + b)

/-- JavaScript negation. -/
def neg : JSNum → JSNum
  | fin a => fin (-a)
  | posInf => negInf
  | negInf => posInf
  | nan => nan

/-- JavaScript subtraction. -/
def sub (a b : JSNum) : JSNum := add a (neg b)

/-- JavaScript multiplication (`Infinity * 0 = NaN`). -/
def mul : JSNum → JSNum → JSNum
  | nan, _ => nan
  | _, nan => nan
  | fin a, fin b => fin (a * b)
  | fin a, posInf => if 0 < a then posInf else if a < 0 then negInf else nan
  | fin a, negInf => if 0 < a then negInf else if a < 0 then posInf else nan
  | posInf, fin b => if 0 < b then posInf else if b < 0 then negInf else nan
  | negInf, fin b => if 0 < b then negInf else if b < 0 then posInf else nan
  | posInf, posInf => posInf
  | posInf, negInf => negInf
  | negInf, posInf => negInf
  | negInf, negInf => posInf

/-- JavaScript division (`0/0 = NaN`, `x/0 = ±Infinity` for `x ≠ 0`);
the sign of zero is not tracked. -/
def div : JSNum → JSNum → JSNum
  | nan, _ => nan
  | _, nan => nan
  | fin a, fin b =>
      if b = 0 then (if a = 0 then nan else if 0 < a then posInf else negInf)
      else fin (a / b)
  | fin _, posInf => fin 0
  | fin _, negInf => fin 0
  | posInf, fin b => if 0 ≤ b then posInf else negInf
  | negInf, fin b => if 0 ≤ b then negInf else posInf
  | posInf, _ => nan
  | negInf, _ => nan

/-- JavaScript `<` (every comparison with `NaN` is false). -/
def ltB : JSNum → JSNum → Bool
  | nan, _ => false
  | _, nan => false
  | fin a, fin b => decide (a < b)
  | fin _, posInf => true
  | fin _, negInf => false
  | posInf, _ => false
  | negInf, negInf => false
  | negInf, _ => true

/-- JavaScript `Math.max` of two numbers (`NaN` wins). -/
def max2 : JSNum → JSNum → JSNum
  | nan, _ => nan
  | _, nan => nan
  | a, b => if ltB a b then b else a

end JSNum

/-! ## `fuseSearchResults` (src/utility.js, lines 177–224)

A search hit as consumed by the fusion step: the identifying fields used to
build the merge key, plus the optional `_additional.certainty` (vector
search) and `_additional.score` (BM25 search). -/

/-- One element of a vector- or keyword-search result list. -/
structure SearchResult where
  filename : String
  pageNumber : Int
  chunkIndex : Int
  certainty : Option ℚ
  score : Option ℚ
deriving DecidableEq, Repr

/-- An entry of the fusion result map: the spread source object plus the
fields added by `fuseSearchResults`. -/
structure FusedResult where
  base : SearchResult
  hybridScore : JSNum
  vectorScore : JSNum
  keywordScore : JSNum
  vectorRank : Option Nat
  keywordRank : Option Nat
deriving DecidableEq, Repr

/-- The merge key `` `${result.filename}_${result.pageNumber}_${result.chunkIndex}` ``. -/
def resultKey (r : SearchResult) : String :=
  r.filename ++ "_" ++ toString r.pageNumber ++ "_" ++ toString r.chunkIndex

/-- `Map.prototype.get`. -/
def mapGet (m : List (String × FusedResult)) (k : String) : Option FusedResult :=
  (m.find? (fun p => p.1 == k)).map Prod.snd

/-- `Map.prototype.set`: update in place if the key exists, else append. -/
def mapSet (m : List (String × FusedResult)) (k : String) (v : FusedResult) :
    List (String × FusedResult) :=
  if (m.find? (fun p => p.1 == k)).isSome then
    m.map (fun p => if p.1 == k then (k, v) else p)
  else m ++ [(k, v)]

/-- `Math.max(...vectorResults.map(r => r._additional?.certainty || 0))`. -/
def vectorMax (vectorResults : List SearchResult) : JSNum :=
  (vectorResults.map (fun r => JSNum.fin ((r.certainty).getD 0))).foldl
    JSNum.max2 JSNum.negInf

/-- `Math.max(...keywordResults.map(r => r._additional?.score || 0))`. -/
def keywordMax (keywordResults : List SearchResult) : JSNum :=
  (keywordResults.map (fun r => JSNum.fin ((r.score).getD 0))).foldl
    JSNum.max2 JSNum.negInf

/-- The entry stored for the vector result of 0-based index `i`:
`normalizedScore = (certainty || 0) / maxCertainty` with no guard against a
zero maximum. -/
def vectorEntry (vectorWeight : ℚ) (maxCertainty : JSNum) (i : Nat)
    (result : SearchResult) : FusedResult :=
  let normalizedScore := JSNum.div (JSNum.fin ((result.certainty).getD 0)) maxCertainty
  { base := result
    hybridScore := JSNum.mul normalizedScore (JSNum.fin vectorWeight)
    vectorScore := normalizedScore
    keywordScore := JSNum.fin 0
    vectorRank := some (i + 1)
    keywordRank := none }

/-- The `vectorResults.forEach` pass of `fuseSearchResults`. -/
def vectorPass (vectorResults : List SearchResult) (vectorWeight : ℚ) :
    List (String × FusedResult) :=
  (vectorResults.enum).foldl
    (fun m p => mapSet m (resultKey p.2) (vectorEntry vectorWeight (vectorMax vectorResults) p.1 p.2))
    []

/-- `normalizedScore = maxBM25Score > 0 ? (score || 0) / maxBM25Score : 0`. -/
def keywordNorm (keywordResults : List SearchResult) (result : SearchResult) : JSNum :=
  if JSNum.ltB (JSNum.fin 0) (keywordMax keywordResults) then
    JSNum.div (JSNum.fin ((result.score).getD 0)) (keywordMax keywordResults)
  else JSNum.fin 0

/-- One iteration of the `keywordResults.forEach` pass (0-based index `i`). -/
def keywordStep (keywordResults : List SearchResult) (keywordWeight : ℚ)
    (m : List (String × FusedResult)) (i : Nat) (result : SearchResult) :
    List (String × FusedResult) :=
  let normalizedScore := keywordNorm keywordResults result
  let key := resultKey result
  match mapGet m key with
  | some existing =>
      mapSet m key { existing with
        hybridScore := JSNum.add existing.hybridScore
          (JSNum.mul normalizedScore (JSNum.fin keywordWeight))
        keywordScore := normalizedScore
        keywordRank := some (i + 1) }
  | none =>
      mapSet m key
        { base := result
          hybridScore := JSNum.mul normalizedScore (JSNum.fin keywordWeight)
          vectorScore := JSNum.fin 0
          keywordScore := normalizedScore
          vectorRank := none
          keywordRank := some (i + 1) }

/-- The `keywordResults.forEach` pass of `fuseSearchResults`. -/
def keywordPass (keywordResults : List SearchResult) (keywordWeight : ℚ)
    (m0 : List (String × FusedResult)) : List (String × FusedResult) :=
  (keywordResults.enum).foldl
    (fun m p => keywordStep keywordResults keywordWeight m p.1 p.2) m0

/-- `a` must be placed after `b` exactly when the comparator
`(a, b) => b.hybridScore - a.hybridScore` is positive. -/
def fuseLater (a b : FusedResult) : Bool :=
  JSNum.ltB (JSNum.fin 0) (JSNum.sub b.hybridScore a.hybridScore)

/-- Insert `x` (which occurred before every element of the list in the
original order) into a sorted list, skipping exactly the elements `x` must
come after. -/
def stableInsert {α : Type} (later : α → α → Bool) (x : α) : List α → List α
  | [] => [x]
  | y :: ys => if later x y then y :: stableInsert later x ys else x :: y :: ys

/-- Stable sort: the model of `Array.prototype.sort`. -/
def stableSort {α : Type} (later : α → α → Bool) : List α → List α
  | [] => []
  | x :: xs => stableInsert later x (stableSort later xs)

/-- `fuseSearchResults(vectorResults, keywordResults, vectorWeight, limit)`. -/
def fuseSearchResults (vectorResults keywordResults : List SearchResult)
    (vectorWeight : ℚ) (limit : Nat) : List FusedResult :=
  let keywordWeight := 1 - vectorWeight
  (stableSort fuseLater
      ((keywordPass keywordResults keywordWeight
          (vectorPass vectorResults vectorWeight)).map Prod.snd)).take limit

/-! ## String helpers shared by the ranker and the query refiner

All string helpers are written by structural recursion over the character
list so that concrete runs reduce inside the kernel. -/

/-- JS `str.toLowerCase()` (ASCII case folding). -/
def jsToLower (s : String) : String := String.mk (s.data.map Char.toLower)

/-- Splitting on whitespace runs, as JS `str.split(/\s+/)`: a maximal
whitespace run is one separator.  `acc` is the current token (reversed);
`skipping` is true while inside a separator run, after the preceding token
has been emitted. -/
def wsSplitGo : List Char → List Char → Bool → List String
  | [], acc, skipping =>
      if skipping then [""] else [String.mk acc.reverse]
  | c :: rest, acc, skipping =>
      if skipping then
        if c.isWhitespace then wsSplitGo rest [] true
        else wsSplitGo rest [c] false
      else
        if c.isWhitespace then String.mk acc.reverse :: wsSplitGo rest [] true
        else wsSplitGo rest (c :: acc) false

/-- `query.split(/\s+/)` on a Lean string. -/
def jsSplitWs (s : String) : List String := wsSplitGo s.data [] false

/-- JS `str.split('\n')`: every single newline is a separator. -/
def jsSplitNlGo : List Char → List Char → List String
  | [], acc => [String.mk acc.reverse]
  | c :: rest, acc =>
      if c = '\n' then String.mk acc.reverse :: jsSplitNlGo rest []
      else jsSplitNlGo rest (c :: acc)

/-- `content.split('\n')` on a Lean string. -/
def jsSplitNl (s : String) : List String := jsSplitNlGo s.data []

/-- JS `\w`: ASCII letters, digits and underscore. -/
def isWordChar (c : Char) : Bool := c.isAlphanum || c == '_'

/-- `text.match(/\b\w+\b/g) || []`: the maximal word-character runs.
`acc` is the word run currently being read, reversed. -/
def wordTokensGo : List Char → List Char → List String
  | [], acc => if acc.isEmpty then [] else [String.mk acc.reverse]
  | c :: rest, acc =>
      if isWordChar c then wordTokensGo rest (c :: acc)
      else
        if acc.isEmpty then wordTokensGo rest []
        else String.mk acc.reverse :: wordTokensGo rest []

/-- Word tokens of a string. -/
def wordTokens (s : String) : List String := wordTokensGo s.data []

/-- JS `haystack.includes(needle)` (substring containment). -/
def strIncludes (haystack needle : String) : Bool :=
  haystack.data.tails.any (fun t => needle.data.isPrefixOf t)

/-- JS `String.prototype.trim` on a character list. -/
def jsTrim (cs : List Char) : List Char :=
  ((cs.dropWhile Char.isWhitespace).reverse.dropWhile Char.isWhitespace).reverse

/-- JS `String.prototype.trim` on a string. -/
def jsTrimStr (s : String) : String := String.mk (jsTrim s.data)

/-! ## `ResultRanker` (src/indexCopy.js, lines 746–810) -/

/-- A candidate as consumed by the ranker: its content plus the optional
`_additional.distance`, `importance` and `wordCount` fields. -/
structure RankedResult where
  content : String
  distance : Option ℚ
  importance : Option ℚ
  wordCount : Option ℚ
deriving DecidableEq, Repr

/-- The initial score
`result._additional?.distance ? (1 - result._additional.distance) : 0.5`
(a zero distance is falsy, so it also yields `0.5`). -/
def relevanceBase (result : RankedResult) : ℚ :=
  match result.distance with
  | some d => if d = 0 then 1/2 else 1 - d
  | none => 1/2

/-- `(keywordMatches / queryWords.length) * 0.3`, where a query word
matches when it occurs as a substring of the lowercased content. -/
def keywordBoost (result : RankedResult) (query : String) : ℚ :=
  let queryWords := jsSplitWs (jsToLower query)
  let keywordMatches :=
    (queryWords.filter (fun w => strIncludes (jsToLower result.content) w)).length
  ((keywordMatches : ℚ) / (queryWords.length : ℚ)) * (3/10)

/-- `if (result.importance) score += result.importance * 0.2` as the value
added to the score (a falsy importance adds nothing). -/
def importanceBoost (result : RankedResult) : ℚ :=
  match result.importance with
  | some imp => if imp = 0 then 0 else imp * (1/5)
  | none => 0

/-- `+ 0.3` when the full lowercased query occurs in the content. -/
def phraseBoost (result : RankedResult) (query : String) : ℚ :=
  if strIncludes (jsToLower result.content) (jsToLower query) then 3/10 else 0

/-- `result.wordCount || result.content.split(/\s+/).length`. -/
def jsWordCount (result : RankedResult) : ℚ :=
  match result.wordCount with
  | some wc => if wc = 0 then ((jsSplitWs result.content).length : ℚ) else wc
  | none => ((jsSplitWs result.content).length : ℚ)

/-- `ResultRanker.calculateRelevanceScore(result, query, queryEmbedding)`:
the successive `score` updates of the source, the `× 0.8` penalty for a
word count outside `[20, 500]`, and the final `Math.min(score, 1.0)`. -/
def calculateRelevanceScore (result : RankedResult) (query : String)
    (queryEmbedding : List ℚ) : ℚ :=
  let score : ℚ := relevanceBase result + keywordBoost result query +
    importanceBoost result + phraseBoost result query
  min (if jsWordCount result < 20 ∨ 500 < jsWordCount result then score * (4/5) else score) 1

/-- `ResultRanker.calculateTextSimilarity(text1, text2)`: token-set Jaccard
similarity; two texts with no word tokens at all give `0/0 = NaN`. -/
def calculateTextSimilarity (text1 text2 : String) : JSNum :=
  let words1 := (wordTokens (jsToLower text1)).toFinset
  let words2 := (wordTokens (jsToLower text2)).toFinset
  let inter := words1 ∩ words2
  let union := words1 ∪ words2
  if union.card = 0 then JSNum.nan
  else JSNum.fin ((inter.card : ℚ) / (union.card : ℚ))

/-- The `shouldInclude` check of `diversifyResults`: no already-selected
result may have similarity strictly greater than `maxSimilarity`. -/
def diversifyAdmit (diversified : List RankedResult) (candidate : RankedResult)
    (maxSimilarity : ℚ) : Bool :=
  diversified.all (fun selected =>
    !(JSNum.ltB (JSNum.fin maxSimilarity)
        (calculateTextSimilarity candidate.content selected.content)))

/-- `ResultRanker.diversifyResults(results, maxSimilarity)`: always keep the
top result, then greedily keep candidates passing the similarity check. -/
def diversifyResults (results : List RankedResult) (maxSimilarity : ℚ) :
    List RankedResult :=
  match results with
  | [] => []
  | r0 :: rest =>
      rest.foldl
        (fun diversified candidate =>
          if diversifyAdmit diversified candidate maxSimilarity then
            diversified ++ [candidate]
          else diversified)
        [r0]

/-! ## `QueryRefiner.generateQueryVariations` (src/indexCopy.js, lines 873–902) -/

/-- `line.replace(/^\d+\.\s*/, '').trim()`. -/
def stripEnum (line : String) : String :=
  let cs := line.data
  let ds := cs.takeWhile Char.isDigit
  let stripped :=
    match ds, cs.drop ds.length with
    | _ :: _, '.' :: r => String.mk (r.dropWhile Char.isWhitespace)
    | _, _ => line
  jsTrimStr stripped

/-- The lines of the collaborator's response (`content?.split('\n')`),
empty when the call failed or the content is absent. -/
def collabLines (collab : Except Unit (Option String)) : List String :=
  match collab with
  | Except.error _ => []
  | Except.ok none => []
  | Except.ok (some c) => jsSplitNl c

/-- `QueryRefiner.generateQueryVariations(originalQuery)`, with the
collaborator call's outcome passed explicitly: a thrown error, or a
response whose `content` may be absent. -/
def generateQueryVariations (originalQuery : String)
    (collab : Except Unit (Option String)) : List String :=
  match collab with
  | Except.error _ => [originalQuery]
  | Except.ok content =>
      let variations :=
        match content with
        | none => []
        | some c =>
            (((jsSplitNl c).filter (fun line => jsTrimStr line != "")).map
              stripEnum).take 5
      originalQuery :: variations

/-! ## `DocumentSynthesizer.synthesizeResults` (src/indexCopy.js, lines 814–868) -/

/-- A final result as consumed by the synthesizer. -/
structure SynthResult where
  content : String
  filename : Option String
deriving DecidableEq, Repr

/-- `result.filename || 'unknown'`. -/
def docKey (r : SynthResult) : String :=
  match r.filename with
  | some f => if f = "" then "unknown" else f
  | none => "unknown"

/-- Insertion-ordered grouping object update (`docGroups[docKey].push`). -/
def groupUpsert (g : List (String × List SynthResult)) (k : String)
    (r : SynthResult) : List (String × List SynthResult) :=
  if (g.find? (fun p => p.1 == k)).isSome then
    g.map (fun p => if p.1 == k then (p.1, p.2 ++ [r]) else p)
  else g ++ [(k, [r])]

/-- `docGroups`: results grouped by document key, in insertion order. -/
def docGroups (results : List SynthResult) : List (String × List SynthResult) :=
  results.foldl (fun g r => groupUpsert g (docKey r) r) []

/-- One `Document: …\nContent: …` block of the synthesis prompt. -/
def synthesisBlock (p : String × List SynthResult) : String :=
  let content := String.intercalate "\n\n" (p.2.map (fun c => c.content))
  "Document: " ++ p.1 ++ "\nContent: " ++ String.mk (content.data.take 1000) ++ "..."

/-- The user message sent to the text-generation collaborator. -/
def synthesisPrompt (results : List SynthResult) (query : String) : String :=
  let synthesis :=
    String.intercalate "\n\n---\n\n" ((docGroups results).map synthesisBlock)
  "Query: \"" ++ query ++ "\"\n\nMultiple Document Excerpts:\n" ++ synthesis ++
    "\n\nPlease provide a comprehensive synthesis that answers the query using information from all relevant documents. Include document citations where appropriate."

/-- `DocumentSynthesizer.synthesizeResults(results, query)`: absent input or
an empty list returns `null` before any collaborator call; a collaborator
failure returns `null`; otherwise the response `content` is returned. -/
def synthesizeResults (results : Option (List SynthResult)) (query : String)
    (generate : String → Except Unit (Option String)) : Option String :=
  match results with
  | none => none
  | some rs =>
      if rs.length = 0 then none
      else
        match generate (synthesisPrompt rs query) with
        | Except.error _ => none
        | Except.ok content => content

/-! ## `chunkTextWithOverlap` (src/unnamed/part_000, lines 118–157; the
same function appears at src/indexCopy.js, lines 122–161) -/

/-- The sentence terminators looked for at a window's end. -/
def sentenceEnds : List Char := ['.', '!', '?', '\n']

/-- Does `text[i]` exist and end a sentence? (`text[i]` of an out-of-range
index is `undefined`, and `includes(undefined)` is false.) -/
def breakHit (text : List Char) (i : Nat) : Bool :=
  match text.get? i with
  | some c => sentenceEnds.contains c
  | none => false

/-- The backward scan `for (let i = end; i > start + maxChunkSize * 0.5; i--)`:
first sentence terminator strictly above the half-window bound, returned as
`i + 1`.  `bound2` is `2 * start + maxChunkSize`, so the fractional guard
`i > start + maxChunkSize * 0.5` is the exact integer test `bound2 < 2 * i`. -/
def findBreakGo (text : List Char) (bound2 : Nat) : Nat → Option Nat
  | 0 => none
  | i + 1 =>
      if bound2 < 2 * (i + 1) then
        if breakHit text (i + 1) then some (i + 2) else findBreakGo text bound2 i
      else none

/-- The final `end` of the window starting at `start`: the raw end
`min(start + maxChunkSize, text.length)`, snapped to a sentence break when
the raw end is interior. -/
def chunkEndIdx (text : List Char) (maxChunkSize : Nat) (start : Nat) : Nat :=
  let end0 := min (start + maxChunkSize) text.length
  if end0 < text.length then
    match findBreakGo text (2 * start + maxChunkSize) end0 with
    | some b => b
    | none => end0
  else end0

/-- `start = Math.max(start + 1, end - overlap)`. -/
def chunkNextStart (text : List Char) (maxChunkSize overlap : Nat) (start : Nat) : Nat :=
  max (start + 1) (chunkEndIdx text maxChunkSize start - overlap)

/-- An emitted chunk: the trimmed window text with the window's offsets. -/
structure Chunk where
  text : List Char
  start : Nat
  endIdx : Nat
deriving DecidableEq, Repr

/-- The chunking loop, fuelled: each iteration consumes one unit of fuel,
and `start` strictly increases, so `text.length` units suffice. -/
def chunkGo (text : List Char) (maxChunkSize overlap : Nat) : Nat → Nat → List Chunk
  | _, 0 => []
  | start, fuel + 1 =>
      if start < text.length then
        let endIdx := chunkEndIdx text maxChunkSize start
        let chunkText := jsTrim ((text.drop start).take (endIdx - start))
        let rest := chunkGo text maxChunkSize overlap
          (chunkNextStart text maxChunkSize overlap start) fuel
        if 50 < chunkText.length then ⟨chunkText, start, endIdx⟩ :: rest else rest
      else []

/-- `chunkTextWithOverlap(text, maxChunkSize, overlap)`. -/
def chunkTextWithOverlap (text : List Char) (maxChunkSize overlap : Nat) : List Chunk :=
  chunkGo text maxChunkSize overlap 0 text.length

/-- The successive windows `(start, end)` the loop inspects, whether or not
their trimmed text is emitted. -/
def chunkWindowsGo (text : List Char) (maxChunkSize overlap : Nat) :
    Nat → Nat → List (Nat × Nat)
  | _, 0 => []
  | start, fuel + 1 =>
      if start < text.length then
        (start, chunkEndIdx text maxChunkSize start) ::
          chunkWindowsGo text maxChunkSize overlap
            (chunkNextStart text maxChunkSize overlap start) fuel
      else []

/-- All windows inspected by `chunkTextWithOverlap`. -/
def chunkWindows (text : List Char) (maxChunkSize overlap : Nat) : List (Nat × Nat) :=
  chunkWindowsGo text maxChunkSize overlap 0 text.length

/-! ## `storePDFInWeaviate` page attribution (src/unnamed/part_000, line 216) -/

/-- `Math.floor((chunk.start / text.length) * numPages) + 1`, with
JavaScript floats modelled as exact rationals. -/
def chunkPageNumber (chunkStart textLength numPages : Nat) : Int :=
  ⌊((chunkStart : ℚ) / (textLength : ℚ)) * (numPages : ℚ)⌋ + 1

/-- The chunk a window `(start, end)` would emit: its trimmed slice when
that slice is longer than 50 characters, nothing otherwise. -/
def windowEmit (text : List Char) (w : Nat × Nat) : Option Chunk :=
  let t := jsTrim ((text.drop w.1).take (w.2 - w.1))
  if 50 < t.length then some ⟨t, w.1, w.2⟩ else none

/-- The rational carried by a finite `JSNum` (0 for non-finite values). -/
def hybridQ (e : FusedResult) : ℚ :=
  match e.hybridScore with
  | JSNum.fin q => q
  | _ => 0

/-- The tie order of the fusion result map: entries coming from the vector
list (in vector-rank order) precede keyword-only entries (in keyword-rank
order). -/
def rankTieOrder (a b : FusedResult) : Prop :=
  match a.vectorRank, b.vectorRank with
  | some i, some j => i < j
  | some _, none => True
  | none, some _ => False
  | none, none => (a.keywordRank).getD 0 < (b.keywordRank).getD 0

/-- The normalization contract of one fusion map entry: both per-method
scores are finite and normalized to `[0, 1]`, and a keyword list with a
zero (or absent) maximum contributes nothing to the fused score, which then
equals the vector contribution alone. -/
def fuseEntryOK (k : List SearchResult) (w : ℚ) (e : FusedResult) : Prop :=
  (∃ q, e.vectorScore = JSNum.fin q ∧ 0 ≤ q ∧ q ≤ 1) ∧
  (∃ q, e.keywordScore = JSNum.fin q ∧ 0 ≤ q ∧ q ≤ 1) ∧
  ((keywordMax k = JSNum.fin 0 ∨ k = []) →
    e.keywordScore = JSNum.fin 0 ∧
      e.hybridScore = JSNum.mul e.vectorScore (JSNum.fin w))

/-! ## Theorems -/

/-- Claim C3 (counterexample): the ranker's relevance score is not clamped
below: a result at store distance 2 with no matching keywords scores
`(1 − 2) × 0.8 = −0.8 < 0`, so the score is not in `[0, 1]`. -/
theorem calculateRelevanceScore_negative_cex :
    calculateRelevanceScore ⟨"xyz", some 2, none, none⟩ "qq" [] < 0 := by
  with_unfolding_all decide

/-- Claim C3 (amended): `Math.min(score, 1.0)` clamps only from above, so
the relevance score is at most 1 for every input, and it lies in `[0, 1]`
provided the supplied store distance does not exceed 1 (or is absent) and
the supplied importance is nonnegative. -/
theorem calculateRelevanceScore_clamped (result : RankedResult) (query : String)
    (queryEmbedding : List ℚ)
    (hd : ∀ d, result.distance = some d → d ≤ 1)
    (hi : 0 ≤ (result.importance).getD 0) :
    0 ≤ calculateRelevanceScore result query queryEmbedding ∧
      calculateRelevanceScore result query queryEmbedding ≤ 1 := by
  have hbase : 0 ≤ relevanceBase result := by
    simp only [relevanceBase]
    rcases hdist : result.distance with _ | d
    · norm_num
    · have hdle := hd d hdist
      by_cases h0 : d = 0
      · simp [h0]
      · simp only [h0, if_false]
        linarith
  have hkb : 0 ≤ keywordBoost result query := by
    simp only [keywordBoost]
    positivity
  have hib : 0 ≤ importanceBoost result := by
    simp only [importanceBoost]
    rcases himp : result.importance with _ | imp
    · norm_num
    · rw [himp] at hi
      simp only [Option.getD_some] at hi
      by_cases h0 : imp = 0
      · simp [h0]
      · simp only [h0, if_false]
        nlinarith
  have hpb : 0 ≤ phraseBoost result query := by
    simp only [phraseBoost]
    split <;> norm_num
  have hs : 0 ≤ relevanceBase result + keywordBoost result query +
      importanceBoost result + phraseBoost result query := by linarith
  constructor
  · simp only [calculateRelevanceScore]
    refine le_min ?_ (by norm_num)
    split
    · nlinarith
    · exact hs
  · simp only [calculateRelevanceScore]
    exact min_le_right _ _

/-- Witness for `calculateRelevanceScore_clamped` at a concrete result. -/
theorem calculateRelevanceScore_clamped_witness :
    0 ≤ calculateRelevanceScore ⟨"hello world", some (1/2), some (1/2), some 100⟩ "hello" [] ∧
      calculateRelevanceScore ⟨"hello world", some (1/2), some (1/2), some 100⟩ "hello" [] ≤ 1 :=
  calculateRelevanceScore_clamped ⟨"hello world", some (1/2), some (1/2), some 100⟩ "hello" []
    (by intro d h; cases h; norm_num) (by norm_num)

/-- Claim C5 (counterexample): query expansion keeps up to five (not four)
collaborator variants and performs no deduplication at all: a response with
duplicate lines yields a six-element list with two equal variants, one of
which also equals the original query ignoring case. -/
theorem generateQueryVariations_no_dedup_cex :
    generateQueryVariations "Q" (Except.ok (some "q\nq\nb\nc\nd")) =
      ["Q", "q", "q", "b", "c", "d"] := by
  with_unfolding_all rfl

/-- Claim C5 (amended): the expansion list is exactly the verbatim original
query followed by at most five (not four) variants — the nonblank lines of
the collaborator's response with a leading `N. ` enumeration stripped and
trimmed, truncated to five — with no deduplication of any kind. -/
theorem generateQueryVariations_shape (q : String)
    (collab : Except Unit (Option String)) :
    (generateQueryVariations q collab).head? = some q ∧
      generateQueryVariations q collab =
        q :: (((collabLines collab).filter (fun line => jsTrimStr line != "")).map
          stripEnum).take 5 ∧
      (generateQueryVariations q collab).tail.length ≤ 5 := by
  rcases collab with e | content
  · exact ⟨rfl, rfl, by simp [generateQueryVariations]⟩
  · rcases content with _ | c
    · exact ⟨rfl, rfl, by simp [generateQueryVariations]⟩
    · refine ⟨rfl, rfl, ?_⟩
      simp only [generateQueryVariations, List.tail_cons]
      rw [List.length_take]
      exact min_le_left _ _

/-- Claim C6: the first element of the expansion list is always the
original query, and a collaborator failure yields exactly `[query]`
(the failure is absorbed, never re-raised). -/
theorem generateQueryVariations_first_and_failure (q : String)
    (collab : Except Unit (Option String)) :
    (generateQueryVariations q collab).head? = some q ∧
      generateQueryVariations q (Except.error ()) = [q] := by
  rcases collab with e | content
  · exact ⟨rfl, rfl⟩
  · exact ⟨rfl, rfl⟩

/-- Claim C9: synthesis returns `null` (absent, never the empty string)
for a missing result list, for an empty result list, and whenever the
text-generation collaborator call fails. -/
theorem synthesizeResults_absent_cases (q : String)
    (generate : String → Except Unit (Option String)) (rs : List SynthResult) :
    synthesizeResults none q generate = none ∧
      synthesizeResults (some []) q generate = none ∧
      synthesizeResults (some rs) q (fun _ => Except.error ()) = none := by
  refine ⟨rfl, rfl, ?_⟩
  rcases rs with _ | ⟨a, l⟩
  · rfl
  · rfl

/-- The next loop start is always past the previous one (helper). -/
theorem chunkNextStartLt (text : List Char) (maxChunkSize overlap start : Nat) :
    start < chunkNextStart text maxChunkSize overlap start :=
  lt_of_lt_of_le (Nat.lt_succ_self start) (le_max_left _ _)

/-- Once `start` reaches the end of the text, no chunks are produced,
whatever the fuel (helper). -/
theorem chunkGoStopped (text : List Char) (maxChunkSize overlap start : Nat)
    (h : ¬ start < text.length) :
    ∀ fuel, chunkGo text maxChunkSize overlap start fuel = [] := by
  intro fuel
  cases fuel with
  | zero => rfl
  | succ f => simp [chunkGo, h]

/-- The fuelled loop is fuel-independent past `text.length - start` units:
the loop reaches its exit in at most that many iterations (helper). -/
theorem chunkGoFuel (text : List Char) (maxChunkSize overlap : Nat) :
    ∀ fuel1 fuel2 start, text.length - start ≤ fuel1 →
      text.length - start ≤ fuel2 →
      chunkGo text maxChunkSize overlap start fuel1 =
        chunkGo text maxChunkSize overlap start fuel2 := by
  intro fuel1
  induction fuel1 with
  | zero =>
      intro fuel2 start h1 h2
      have hstop : ¬ start < text.length := by omega
      rw [chunkGoStopped text maxChunkSize overlap start hstop,
        chunkGoStopped text maxChunkSize overlap start hstop]
  | succ f ih =>
      intro fuel2 start h1 h2
      by_cases h : start < text.length
      · rcases fuel2 with _ | f2
        · omega
        · have hnext := chunkNextStartLt text maxChunkSize overlap start
          simp only [chunkGo, if_pos h]
          rw [ih f2 (chunkNextStart text maxChunkSize overlap start) (by omega) (by omega)]
      · rw [chunkGoStopped text maxChunkSize overlap start h,
          chunkGoStopped text maxChunkSize overlap start h]

/-- Claim C7: the fixed-window chunker makes progress on every iteration —
`start = Math.max(start + 1, end − overlap)` strictly increases `start`
unconditionally — and consequently the loop terminates on every input:
`text.length − start` is a strictly decreasing measure, and any fuel of at
least that many steps computes the loop's actual result. -/
theorem chunkTextWithOverlap_progress (text : List Char)
    (maxChunkSize overlap start fuel : Nat) (h : text.length - start ≤ fuel) :
    start < chunkNextStart text maxChunkSize overlap start ∧
      chunkGo text maxChunkSize overlap start fuel =
        chunkGo text maxChunkSize overlap start (text.length - start) :=
  ⟨chunkNextStartLt text maxChunkSize overlap start,
    chunkGoFuel text maxChunkSize overlap fuel (text.length - start) start h (Nat.le_refl _)⟩

/-- Witness for `chunkTextWithOverlap_progress` at a concrete input. -/
theorem chunkTextWithOverlap_progress_witness :
    0 < chunkNextStart ['a', 'b'] 1 0 0 ∧
      chunkGo ['a', 'b'] 1 0 0 5 = chunkGo ['a', 'b'] 1 0 0 (['a', 'b'].length - 0) :=
  chunkTextWithOverlap_progress ['a', 'b'] 1 0 0 5 (by decide)

/-- The chunk list is exactly the window list filtered through the
50-character emission rule (helper). -/
theorem chunkGoWindows (text : List Char) (maxChunkSize overlap : Nat) :
    ∀ fuel start,
      chunkGo text maxChunkSize overlap start fuel =
        (chunkWindowsGo text maxChunkSize overlap start fuel).filterMap (windowEmit text) := by
  intro fuel
  induction fuel with
  | zero => intro start; rfl
  | succ f ih =>
      intro start
      by_cases h : start < text.length
      · simp only [chunkGo, chunkWindowsGo, if_pos h, List.filterMap_cons]
        by_cases h50 : 50 <
            (jsTrim ((text.drop start).take (chunkEndIdx text maxChunkSize start - start))).length
        · simp [windowEmit, h50, ih]
        · simp [windowEmit, h50, ih]
      · simp [chunkGo, chunkWindowsGo, h]

/-- Claim C8 (counterexample): a window whose trimmed text has length
exactly 50 is dropped, not emitted: 50 repeated letters form a single
window `(0, 50)` with trimmed length 50, and the chunker emits nothing. -/
theorem chunkTextWithOverlap_fifty_dropped_cex :
    (chunkWindows (List.replicate 50 'a') 800 150).head? = some (0, 50) ∧
      (jsTrim ((List.replicate 50 'a').take 50)).length = 50 ∧
      chunkTextWithOverlap (List.replicate 50 'a') 800 150 = [] := by
  with_unfolding_all decide

/-- Claim C8 (amended): a window is emitted exactly when its trimmed text
is strictly longer than 50 characters (`chunkText.length > 50`), so every
emitted chunk has trimmed length at least 51, and an exactly-50-character
window is dropped. -/
theorem chunkTextWithOverlap_emit_iff (text : List Char) (maxChunkSize overlap : Nat) :
    chunkTextWithOverlap text maxChunkSize overlap =
        (chunkWindows text maxChunkSize overlap).filterMap (windowEmit text) ∧
      ∀ c ∈ chunkTextWithOverlap text maxChunkSize overlap, 50 < c.text.length := by
  constructor
  · exact chunkGoWindows text maxChunkSize overlap text.length 0
  · intro c hc
    rw [chunkTextWithOverlap, chunkGoWindows text maxChunkSize overlap text.length 0] at hc
    rcases List.mem_filterMap.mp hc with ⟨w, hw, hemit⟩
    simp only [windowEmit] at hemit
    split at hemit
    · cases hemit
      assumption
    · cases hemit

/-- Witness for `chunkTextWithOverlap_emit_iff` (trivially hypothesis-free,
evaluated at a concrete text). -/
theorem chunkTextWithOverlap_emit_iff_witness :
    50 < (Chunk.mk (List.replicate 52 'a') 0 52).text.length :=
  (chunkTextWithOverlap_emit_iff (List.replicate 52 'a') 800 0).2
    ⟨List.replicate 52 'a', 0, 52⟩ (by with_unfolding_all decide)

/-- Every emitted chunk's `start` offset is strictly inside the text
(helper): chunks are only pushed while `start < text.length` holds. -/
theorem chunkGoStartLt (text : List Char) (maxChunkSize overlap : Nat) :
    ∀ fuel start c, c ∈ chunkGo text maxChunkSize overlap start fuel →
      c.start < text.length := by
  intro fuel
  induction fuel with
  | zero =>
      intro start c hc
      simp [chunkGo] at hc
  | succ f ih =>
      intro start c hc
      by_cases h : start < text.length
      · simp only [chunkGo, if_pos h] at hc
        by_cases h50 : 50 <
            (jsTrim ((text.drop start).take (chunkEndIdx text maxChunkSize start - start))).length
        · rw [if_pos h50] at hc
          rcases List.mem_cons.mp hc with rfl | hmem
          · exact h
          · exact ih _ c hmem
        · rw [if_neg h50] at hc
          exact ih _ c hc
      · simp [chunkGo, h] at hc

/-- Claim C10: for every chunk the chunker produces, the stored page number
`Math.floor((chunk.start / text.length) * numPages) + 1` lies in
`[1, numPages]` for every positive page count (floats modelled exactly). -/
theorem chunkPageNumber_in_range (text : List Char) (maxChunkSize overlap : Nat)
    (c : Chunk) (hc : c ∈ chunkTextWithOverlap text maxChunkSize overlap)
    (numPages : Nat) (hp : 0 < numPages) :
    1 ≤ chunkPageNumber c.start text.length numPages ∧
      chunkPageNumber c.start text.length numPages ≤ (numPages : ℤ) := by
  have hlt : c.start < text.length :=
    chunkGoStartLt text maxChunkSize overlap text.length 0 c hc
  have hx0 : (0:ℚ) ≤ (c.start : ℚ) / (text.length : ℚ) * (numPages : ℚ) := by positivity
  have hx1 : (c.start : ℚ) / (text.length : ℚ) * (numPages : ℚ) < (numPages : ℚ) := by
    have hsL : (c.start : ℚ) < (text.length : ℚ) := by exact_mod_cast hlt
    have hLpos : (0:ℚ) < (text.length : ℚ) := by
      exact_mod_cast lt_of_le_of_lt (Nat.zero_le _) hlt
    have hdiv : (c.start : ℚ) / (text.length : ℚ) < 1 := (div_lt_one hLpos).mpr hsL
    have hPpos : (0:ℚ) < (numPages : ℚ) := by exact_mod_cast hp
    calc (c.start : ℚ) / (text.length : ℚ) * (numPages : ℚ)
        < 1 * (numPages : ℚ) := mul_lt_mul_of_pos_right hdiv hPpos
      _ = (numPages : ℚ) := one_mul _
  constructor
  · simp only [chunkPageNumber]
    have hfl : (0:ℤ) ≤ ⌊(c.start : ℚ) / (text.length : ℚ) * (numPages : ℚ)⌋ :=
      Int.floor_nonneg.mpr hx0
    omega
  · simp only [chunkPageNumber]
    have hfl : ⌊(c.start : ℚ) / (text.length : ℚ) * (numPages : ℚ)⌋ < (numPages : ℤ) :=
      Int.floor_lt.mpr (by exact_mod_cast hx1)
    omega

/-- Witness for `chunkPageNumber_in_range` at a concrete chunk. -/
theorem chunkPageNumber_in_range_witness :
    1 ≤ chunkPageNumber 0 (List.replicate 52 'a').length 3 ∧
      chunkPageNumber 0 (List.replicate 52 'a').length 3 ≤ (3 : ℤ) :=
  chunkPageNumber_in_range (List.replicate 52 'a') 800 0
    ⟨List.replicate 52 'a', 0, 52⟩ (by with_unfolding_all decide) 3 (by norm_num)

/-- Claim C4 (counterexample): the admission test is `similarity >
threshold`, not `≥`, so a candidate whose similarity to an admitted result
is exactly the threshold is admitted: with threshold `0.8`, `"a b c d"` is
admitted next to `"a b c d e"` although their Jaccard similarity is exactly
`4/5`, which is not strictly below the threshold. -/
theorem diversifyResults_threshold_cex :
    diversifyResults [⟨"a b c d e", none, none, none⟩, ⟨"a b c d", none, none, none⟩]
        (4/5) =
        [⟨"a b c d e", none, none, none⟩, ⟨"a b c d", none, none, none⟩] ∧
      calculateTextSimilarity "a b c d" "a b c d e" = JSNum.fin (4/5) := by
  with_unfolding_all decide

/-- The greedy fold of `diversifyResults` preserves the pairwise
no-excessive-similarity property of its accumulator (helper). -/
theorem diversifyFoldPairwise (maxSimilarity : ℚ) :
    ∀ (rest acc : List RankedResult),
      List.Pairwise (fun a b =>
        JSNum.ltB (JSNum.fin maxSimilarity)
          (calculateTextSimilarity b.content a.content) = false) acc →
      List.Pairwise (fun a b =>
        JSNum.ltB (JSNum.fin maxSimilarity)
          (calculateTextSimilarity b.content a.content) = false)
        (rest.foldl
          (fun diversified candidate =>
            if diversifyAdmit diversified candidate maxSimilarity then
              diversified ++ [candidate]
            else diversified) acc) := by
  intro rest
  induction rest with
  | nil => intro acc h; exact h
  | cons cand rest ih =>
      intro acc hacc
      simp only [List.foldl_cons]
      apply ih
      by_cases h : diversifyAdmit acc cand maxSimilarity = true
      · rw [if_pos h]
        rw [List.pairwise_append]
        refine ⟨hacc, List.pairwise_singleton _ _, ?_⟩
        intro a ha b hb
        rcases List.mem_singleton.mp hb with rfl
        simp only [diversifyAdmit, List.all_eq_true] at h
        have hb2 := h a ha
        simpa using hb2
      · rw [if_neg h]
        exact hacc

/-- Claim C4 (amended): any later-admitted result's token-set Jaccard
similarity against any earlier-admitted result is never strictly greater
than the threshold (the source admits at `similarity ≤ threshold`, so
similarity exactly equal to the threshold — or an undefined `0/0`
similarity between two token-free texts — is admitted; "strictly below" is
not guaranteed). -/
theorem diversifyResults_pairwise (results : List RankedResult) (maxSimilarity : ℚ) :
    List.Pairwise (fun a b =>
      JSNum.ltB (JSNum.fin maxSimilarity)
        (calculateTextSimilarity b.content a.content) = false)
      (diversifyResults results maxSimilarity) := by
  rcases results with _ | ⟨r0, rest⟩
  · exact List.Pairwise.nil
  · exact diversifyFoldPairwise maxSimilarity rest [r0] (List.pairwise_singleton _ _)

/-- `Math.max` of two finite numbers is the finite maximum (helper). -/
theorem max2_fin_fin (x y : ℚ) :
    JSNum.max2 (JSNum.fin x) (JSNum.fin y) = JSNum.fin (max x y) := by
  simp only [JSNum.max2, JSNum.ltB]
  rcases le_or_lt y x with h | h
  · rw [if_neg (by simpa using not_lt.mpr h), max_eq_left h]
  · rw [if_pos (by simpa using h), max_eq_right (le_of_lt h)]

/-- Folding `Math.max` over finite numbers from a finite seed (helper). -/
theorem foldl_max2_fin {β : Type} (f : β → ℚ) (l : List β) :
    ∀ a : ℚ, (l.map (fun x => JSNum.fin (f x))).foldl JSNum.max2 (JSNum.fin a) =
      JSNum.fin ((l.map f).foldl max a) := by
  induction l with
  | nil => intro a; rfl
  | cons x l ih =>
      intro a
      simp only [List.map_cons, List.foldl_cons, max2_fin_fin]
      exact ih (max a (f x))

/-- The fold of `max` bounds its seed and every element (helper). -/
theorem foldl_max_bounds {β : Type} (f : β → ℚ) (l : List β) :
    ∀ a : ℚ, a ≤ (l.map f).foldl max a ∧ ∀ x ∈ l, f x ≤ (l.map f).foldl max a := by
  induction l with
  | nil => intro a; exact ⟨le_refl a, by simp⟩
  | cons y l ih =>
      intro a
      simp only [List.map_cons, List.foldl_cons]
      refine ⟨le_trans (le_max_left a (f y)) (ih (max a (f y))).1, ?_⟩
      intro x hx
      rcases List.mem_cons.mp hx with rfl | hx
      · exact le_trans (le_max_right a (f x)) (ih (max a (f x))).1
      · exact (ih (max a (f y))).2 x hx

/-- A nonempty vector list has a finite maximum certainty bounding every
member's certainty (helper). -/
theorem vectorMax_shape (v : List SearchResult) (hne : v ≠ []) :
    ∃ M, vectorMax v = JSNum.fin M ∧ ∀ r ∈ v, (r.certainty).getD 0 ≤ M := by
  rcases v with _ | ⟨r0, rs⟩
  · exact absurd rfl hne
  · refine ⟨(rs.map fun r => (r.certainty).getD 0).foldl max ((r0.certainty).getD 0), ?_, ?_⟩
    · simp only [vectorMax, List.map_cons, List.foldl_cons]
      exact foldl_max2_fin (fun r => (r.certainty).getD 0) rs ((r0.certainty).getD 0)
    · intro r hr
      rcases List.mem_cons.mp hr with rfl | hr
      · exact (foldl_max_bounds (fun r => (r.certainty).getD 0) rs _).1
      · exact (foldl_max_bounds (fun r => (r.certainty).getD 0) rs _).2 r hr

/-- A nonempty keyword list has a finite maximum score bounding every
member's score (helper). -/
theorem keywordMax_shape (k : List SearchResult) (hne : k ≠ []) :
    ∃ M, keywordMax k = JSNum.fin M ∧ ∀ r ∈ k, (r.score).getD 0 ≤ M := by
  rcases k with _ | ⟨r0, rs⟩
  · exact absurd rfl hne
  · refine ⟨(rs.map fun r => (r.score).getD 0).foldl max ((r0.score).getD 0), ?_, ?_⟩
    · simp only [keywordMax, List.map_cons, List.foldl_cons]
      exact foldl_max2_fin (fun r => (r.score).getD 0) rs ((r0.score).getD 0)
    · intro r hr
      rcases List.mem_cons.mp hr with rfl | hr
      · exact (foldl_max_bounds (fun r => (r.score).getD 0) rs _).1
      · exact (foldl_max_bounds (fun r => (r.score).getD 0) rs _).2 r hr

/-- Every entry of `mapSet m k v` is either the new binding or an old entry
(helper). -/
theorem mapSet_mem (m : List (String × FusedResult)) (k : String) (v : FusedResult)
    (p : String × FusedResult) (hp : p ∈ mapSet m k v) : p = (k, v) ∨ p ∈ m := by
  rw [mapSet] at hp
  split at hp
  · rcases List.mem_map.mp hp with ⟨q, hq, hfq⟩
    by_cases hqk : q.1 == k
    · rw [if_pos hqk] at hfq
      exact Or.inl hfq.symm
    · rw [if_neg hqk] at hfq
      exact Or.inr (hfq ▸ hq)
  · rcases List.mem_append.mp hp with hp | hp
    · exact Or.inr hp
    · exact Or.inl (List.mem_singleton.mp hp)

/-- A successful `Map.get` exhibits a bound entry of the map (helper). -/
theorem mapGet_mem (m : List (String × FusedResult)) (k : String) (e : FusedResult)
    (h : mapGet m k = some e) : (k, e) ∈ m := by
  rw [mapGet] at h
  rcases Option.map_eq_some'.mp h with ⟨p, hfind, hsnd⟩
  have hmem := List.mem_of_find?_eq_some hfind
  have hpred := List.find?_some hfind
  have hk : p.1 = k := by simpa using hpred
  have : p = (k, e) := by
    rcases p with ⟨a, b⟩
    simp only at hk hsnd
    rw [hk, hsnd]
  exact this ▸ hmem

/-- Setting a key absent from the map appends the binding (helper). -/
theorem mapSet_fresh (m : List (String × FusedResult)) (k : String) (v : FusedResult)
    (h : ∀ p ∈ m, p.1 ≠ k) : mapSet m k v = m ++ [(k, v)] := by
  have hfind : m.find? (fun p => p.1 == k) = none :=
    List.find?_eq_none.mpr (by intro p hp; simpa using h p hp)
  rw [mapSet, hfind]
  rfl

/-- A failed `Map.get` means the key is absent, so `Map.set` appends
(helper). -/
theorem mapSet_of_get_none (m : List (String × FusedResult)) (k : String)
    (v : FusedResult) (h : mapGet m k = none) : mapSet m k v = m ++ [(k, v)] := by
  apply mapSet_fresh
  intro p hp hpk
  rw [mapGet, Option.map_eq_none'] at h
  have := List.find?_eq_none.mp h p hp
  simp [hpk] at this

/-- Membership in a stable insertion (helper). -/
theorem stableInsert_mem {α : Type} (later : α → α → Bool) (x z : α) :
    ∀ s : List α, z ∈ stableInsert later x s ↔ z = x ∨ z ∈ s := by
  intro s
  induction s with
  | nil => simp [stableInsert]
  | cons y ys ih =>
      simp only [stableInsert]
      split
      · simp only [List.mem_cons, ih]
        try tauto
      · simp only [List.mem_cons]
        try tauto

/-- Membership in a stable sort (helper). -/
theorem stableSort_mem {α : Type} (later : α → α → Bool) (z : α) :
    ∀ l : List α, z ∈ stableSort later l ↔ z ∈ l := by
  intro l
  induction l with
  | nil => simp [stableSort]
  | cons x xs ih =>
      simp only [stableSort, stableInsert_mem, ih, List.mem_cons]

/-- The payload of an enumerated entry is a list member (helper). -/
theorem enumFrom_snd_mem {α : Type} :
    ∀ (l : List α) (n : Nat) (p : Nat × α), p ∈ l.enumFrom n → p.2 ∈ l := by
  intro l
  induction l with
  | nil => intro n p hp; simp [List.enumFrom] at hp
  | cons x xs ih =>
      intro n p hp
      simp only [List.enumFrom] at hp
      rcases List.mem_cons.mp hp with rfl | hp
      · exact List.mem_cons_self _ _
      · exact List.mem_cons_of_mem _ (ih (n + 1) p hp)

/-- Enumeration indices are bounded below by the start index (helper). -/
theorem enumFrom_fst_ge {α : Type} :
    ∀ (l : List α) (n : Nat) (p : Nat × α), p ∈ l.enumFrom n → n ≤ p.1 := by
  intro l
  induction l with
  | nil => intro n p hp; simp [List.enumFrom] at hp
  | cons x xs ih =>
      intro n p hp
      simp only [List.enumFrom] at hp
      rcases List.mem_cons.mp hp with rfl | hp
      · exact Nat.le_refl _
      · exact Nat.le_of_succ_le (ih (n + 1) p hp)

/-- Enumeration indices are strictly increasing (helper). -/
theorem enumFrom_fst_pairwise {α : Type} :
    ∀ (l : List α) (n : Nat),
      List.Pairwise (fun p q => p.1 < q.1) (l.enumFrom n) := by
  intro l
  induction l with
  | nil => intro n; simp [List.enumFrom]
  | cons x xs ih =>
      intro n
      simp only [List.enumFrom]
      refine List.pairwise_cons.mpr ⟨?_, ih (n + 1)⟩
      intro q hq
      exact Nat.lt_of_succ_le (enumFrom_fst_ge xs (n + 1) q hq)

/-- Enumeration transports a pairwise relation on payloads (helper). -/
theorem enumFrom_pairwise_of {α : Type} (S : α → α → Prop) :
    ∀ (l : List α) (n : Nat), List.Pairwise S l →
      List.Pairwise (fun p q => S p.2 q.2) (l.enumFrom n) := by
  intro l
  induction l with
  | nil => intro n _; simp [List.enumFrom]
  | cons x xs ih =>
      intro n hS
      simp only [List.enumFrom]
      rcases List.pairwise_cons.mp hS with ⟨hhead, htail⟩
      refine List.pairwise_cons.mpr ⟨?_, ih (n + 1) htail⟩
      intro q hq
      exact hhead q.2 (enumFrom_snd_mem xs (n + 1) q hq)

/-- A per-entry property carried by the inserted values is preserved by a
fold of `Map.set` operations (helper). -/
theorem foldl_mapSet_preserve {β : Type} (key : β → String) (val : β → FusedResult)
    (P : FusedResult → Prop) :
    ∀ (l : List β) (acc : List (String × FusedResult)),
      (∀ p ∈ acc, P p.2) → (∀ x ∈ l, P (val x)) →
      ∀ p ∈ l.foldl (fun m x => mapSet m (key x) (val x)) acc, P p.2 := by
  intro l
  induction l with
  | nil => intro acc hacc _ p hp; exact hacc p hp
  | cons x l ih =>
      intro acc hacc hl p hp
      simp only [List.foldl_cons] at hp
      refine ih (mapSet acc (key x) (val x)) ?_
        (fun y hy => hl y (List.mem_cons_of_mem _ hy)) p hp
      intro q hq
      rcases mapSet_mem acc (key x) (val x) q hq with rfl | hq2
      · exact hl x (List.mem_cons_self _ _)
      · exact hacc q hq2

/-- A per-entry property preserved by each `keywordStep` is preserved by
the whole keyword pass (helper). -/
theorem keywordFold_preserve (k : List SearchResult) (kw : ℚ) (P : FusedResult → Prop)
    (hstep : ∀ m i r, r ∈ k → (∀ p ∈ m, P p.2) →
      ∀ p ∈ keywordStep k kw m i r, P p.2) :
    ∀ (ps : List (Nat × SearchResult)) (m : List (String × FusedResult)),
      (∀ q ∈ ps, q.2 ∈ k) → (∀ p ∈ m, P p.2) →
      ∀ p ∈ ps.foldl (fun m q => keywordStep k kw m q.1 q.2) m, P p.2 := by
  intro ps
  induction ps with
  | nil => intro m _ hm p hp; exact hm p hp
  | cons q ps ih =>
      intro m hps hm p hp
      simp only [List.foldl_cons] at hp
      exact ih (keywordStep k kw m q.1 q.2)
        (fun y hy => hps y (List.mem_cons_of_mem _ hy))
        (hstep m q.1 q.2 (hps q (List.mem_cons_self _ _)) hm) p hp

/-- The keyword normalization is a finite rational in `[0, 1]` for
nonnegative scores (helper). -/
theorem keywordNorm_fin (k : List SearchResult) (r : SearchResult) (hr : r ∈ k)
    (Hscore : ∀ x ∈ k, 0 ≤ (x.score).getD 0) :
    ∃ q, keywordNorm k r = JSNum.fin q ∧ 0 ≤ q ∧ q ≤ 1 := by
  rw [keywordNorm]
  split
  · rename_i hguard
    have hne : k ≠ [] := by
      intro h
      subst h
      simp [keywordMax, JSNum.ltB] at hguard
    rcases keywordMax_shape k hne with ⟨M, hM, hMb⟩
    rw [hM] at hguard ⊢
    have hMpos : 0 < M := by
      simp [JSNum.ltB] at hguard
      exact hguard
    refine ⟨(r.score).getD 0 / M, ?_, ?_, ?_⟩
    · simp only [JSNum.div]
      rw [if_neg (ne_of_gt hMpos)]
    · exact div_nonneg (Hscore r hr) (le_of_lt hMpos)
    · rw [div_le_one hMpos]
      exact hMb r hr
  · exact ⟨0, rfl, le_refl 0, by norm_num⟩

/-- The keyword normalization of a zero-or-absent-maximum list is 0
(helper). -/
theorem keywordNorm_zero (k : List SearchResult) (r : SearchResult)
    (h : keywordMax k = JSNum.fin 0 ∨ k = []) : keywordNorm k r = JSNum.fin 0 := by
  rw [keywordNorm]
  rcases h with h | h
  · rw [h]
    simp [JSNum.ltB]
  · subst h
    simp [keywordMax, JSNum.ltB]

/-- Every vector-pass entry satisfies the normalization contract, given
nonnegative certainties and a nonzero maximum (helper). -/
theorem vectorPass_entryOK (v k : List SearchResult) (w : ℚ)
    (Hcert : ∀ r ∈ v, 0 ≤ (r.certainty).getD 0)
    (Hmax : vectorMax v ≠ JSNum.fin 0) :
    ∀ p ∈ vectorPass v w, fuseEntryOK k w p.2 := by
  intro p hp
  rw [vectorPass] at hp
  refine @foldl_mapSet_preserve (Nat × SearchResult) (fun q => resultKey q.2)
    (fun q => vectorEntry w (vectorMax v) q.1 q.2) (fuseEntryOK k w) v.enum []
    (by intro q hq; simp at hq) ?_ p hp
  intro x hx
  have hxv : x.2 ∈ v := enumFrom_snd_mem v 0 x hx
  have hne : v ≠ [] := by
    intro h
    subst h
    simp at hxv
  rcases vectorMax_shape v hne with ⟨M, hM, hMb⟩
  have hM0 : M ≠ 0 := by
    intro h0
    rw [h0] at hM
    exact Hmax hM
  have hMnn : 0 ≤ M := le_trans (Hcert x.2 hxv) (hMb x.2 hxv)
  have hMpos : 0 < M := lt_of_le_of_ne hMnn (Ne.symm hM0)
  refine ⟨⟨(x.2.certainty).getD 0 / M, ?_, ?_, ?_⟩,
    ⟨0, rfl, le_refl 0, by norm_num⟩, ?_⟩
  · show JSNum.div (JSNum.fin ((x.2.certainty).getD 0)) (vectorMax v) = _
    rw [hM]
    simp only [JSNum.div]
    rw [if_neg hM0]
  · exact div_nonneg (Hcert x.2 hxv) (le_of_lt hMpos)
  · rw [div_le_one hMpos]
    exact hMb x.2 hxv
  · intro _
    exact ⟨rfl, rfl⟩

/-- One keyword step preserves the normalization contract of every map
entry, given nonnegative keyword scores (helper). -/
theorem keywordStep_entryOK (k : List SearchResult) (kw w : ℚ)
    (Hscore : ∀ x ∈ k, 0 ≤ (x.score).getD 0) :
    ∀ m i r, r ∈ k → (∀ p ∈ m, fuseEntryOK k w p.2) →
      ∀ p ∈ keywordStep k kw m i r, fuseEntryOK k w p.2 := by
  intro m i r hr hm p hp
  rcases hget : mapGet m (resultKey r) with _ | existing
  · simp only [keywordStep, hget] at hp
    rcases mapSet_mem _ _ _ p hp with rfl | hp2
    · rcases keywordNorm_fin k r hr Hscore with ⟨q, hq, hq0, hq1⟩
      refine ⟨⟨0, rfl, le_refl 0, by norm_num⟩, ⟨q, hq, hq0, hq1⟩, ?_⟩
      intro hcond
      have hz := keywordNorm_zero k r hcond
      refine ⟨hz, ?_⟩
      show JSNum.mul (keywordNorm k r) (JSNum.fin kw) =
        JSNum.mul (JSNum.fin 0) (JSNum.fin w)
      rw [hz]
      simp only [JSNum.mul, zero_mul]
    · exact hm p hp2
  · simp only [keywordStep, hget] at hp
    rcases mapSet_mem _ _ _ p hp with rfl | hp2
    · have hex : (resultKey r, existing) ∈ m := mapGet_mem _ _ _ hget
      rcases hm _ hex with ⟨⟨qv, hqv, hqv0, hqv1⟩, _, hcond⟩
      rcases keywordNorm_fin k r hr Hscore with ⟨q, hq, hq0, hq1⟩
      refine ⟨⟨qv, hqv, hqv0, hqv1⟩, ⟨q, hq, hq0, hq1⟩, ?_⟩
      intro hc
      have hz := keywordNorm_zero k r hc
      rcases hcond hc with ⟨hks, hhy⟩
      refine ⟨hz, ?_⟩
      show JSNum.add existing.hybridScore
          (JSNum.mul (keywordNorm k r) (JSNum.fin kw)) =
        JSNum.mul existing.vectorScore (JSNum.fin w)
      rw [hz, hhy, hqv]
      simp only [JSNum.mul, JSNum.add, zero_mul, add_zero]
    · exact hm p hp2

/-- Claim C1 (amended): under nonnegative input scores and a nonzero vector
maximum, every fused entry carries finite per-method scores normalized to
`[0, 1]` (each score divided by its own list's maximum), and a keyword list
whose maximum is zero or absent contributes 0 to every fused score.  The
vector list, by contrast, has no zero-maximum guard: a nonempty vector list
whose maximum certainty is 0 produces `0/0 = NaN` contributions (see the
counterexample), which is why the nonzero-maximum hypothesis is needed. -/
theorem fuseSearchResults_normalization (v k : List SearchResult) (w : ℚ)
    (limit : Nat)
    (Hcert : ∀ r ∈ v, 0 ≤ (r.certainty).getD 0)
    (Hscore : ∀ r ∈ k, 0 ≤ (r.score).getD 0)
    (Hmax : vectorMax v ≠ JSNum.fin 0) :
    ∀ e ∈ fuseSearchResults v k w limit, fuseEntryOK k w e := by
  intro e he
  have he2 : e ∈ stableSort fuseLater
      ((keywordPass k (1 - w) (vectorPass v w)).map Prod.snd) :=
    List.take_subset _ _ he
  have he3 := (stableSort_mem fuseLater e _).mp he2
  rcases List.mem_map.mp he3 with ⟨p, hp, rfl⟩
  refine keywordFold_preserve k (1 - w) (fuseEntryOK k w) ?_ k.enum (vectorPass v w)
    ?_ ?_ p hp
  · exact keywordStep_entryOK k (1 - w) w Hscore
  · intro q hq
    exact enumFrom_snd_mem k 0 q hq
  · exact vectorPass_entryOK v k w Hcert Hmax

/-- Witness for `fuseSearchResults_normalization` at a concrete input. -/
theorem fuseSearchResults_normalization_witness :
    (FusedResult.mk ⟨"f", 1, 0, some (1/2), none⟩ (JSNum.fin (7/10)) (JSNum.fin 1)
        (JSNum.fin 0) (some 1) none).keywordScore = JSNum.fin 0 ∧
      (FusedResult.mk ⟨"f", 1, 0, some (1/2), none⟩ (JSNum.fin (7/10)) (JSNum.fin 1)
          (JSNum.fin 0) (some 1) none).hybridScore =
        JSNum.mul (FusedResult.mk ⟨"f", 1, 0, some (1/2), none⟩ (JSNum.fin (7/10))
          (JSNum.fin 1) (JSNum.fin 0) (some 1) none).vectorScore (JSNum.fin (7/10)) :=
  (fuseSearchResults_normalization [⟨"f", 1, 0, some (1/2), none⟩] [] (7/10) 5
    (by with_unfolding_all decide) (by with_unfolding_all decide)
    (by with_unfolding_all decide)
    (FusedResult.mk ⟨"f", 1, 0, some (1/2), none⟩ (JSNum.fin (7/10)) (JSNum.fin 1)
      (JSNum.fin 0) (some 1) none)
    (by with_unfolding_all decide)).2.2 (Or.inr rfl)

/-- Claim C1 (counterexample): a nonempty vector list whose maximum
certainty is 0 does not contribute 0 — the member's normalized score is the
JavaScript `0/0 = NaN`, and the fused score of its entry is `NaN`, because
the vector pass, unlike the keyword pass, has no zero-maximum guard. -/
theorem fuseSearchResults_nan_cex :
    (fuseSearchResults [⟨"f", 1, 0, some 0, none⟩] [] (7/10) 5).map
      FusedResult.hybridScore = [JSNum.nan] := by
  with_unfolding_all decide

/-- Stable insertion preserves sortedness-with-ties: the inserted element,
which preceded every list element in the original order, ends up before
exactly the elements it does not strictly lose to (helper). -/
theorem stableInsertPairwise {α : Type} (later : α → α → Bool) (key : α → ℚ)
    (R : α → α → Prop) (x : α) :
    ∀ s : List α,
      List.Pairwise (fun a b => key b < key a ∨ (key a = key b ∧ R a b)) s →
      (∀ y ∈ s, R x y) →
      (∀ y ∈ s, later x y = decide (key x < key y)) →
      List.Pairwise (fun a b => key b < key a ∨ (key a = key b ∧ R a b))
        (stableInsert later x s) := by
  intro s
  induction s with
  | nil =>
      intro _ _ _
      simp [stableInsert]
  | cons y ys ih =>
      intro hQ hR hcons
      rcases List.pairwise_cons.mp hQ with ⟨hQhead, hQtail⟩
      simp only [stableInsert]
      by_cases hxy : later x y = true
      · rw [if_pos hxy]
        have hkey : key x < key y := by
          have hc := hcons y (List.mem_cons_self _ _)
          rw [hc] at hxy
          exact of_decide_eq_true hxy
        refine List.pairwise_cons.mpr ⟨?_, ?_⟩
        · intro z hz
          rcases (stableInsert_mem later x z ys).mp hz with rfl | hz2
          · exact Or.inl hkey
          · exact hQhead z hz2
        · exact ih hQtail (fun z hz => hR z (List.mem_cons_of_mem _ hz))
            (fun z hz => hcons z (List.mem_cons_of_mem _ hz))
      · rw [if_neg hxy]
        have hkey : ¬ key x < key y := by
          have hc := hcons y (List.mem_cons_self _ _)
          rw [hc] at hxy
          simpa using hxy
        have hyx : key y ≤ key x := le_of_not_lt hkey
        refine List.pairwise_cons.mpr ⟨?_, hQ⟩
        intro z hz
        rcases List.mem_cons.mp hz with rfl | hz2
        · rcases lt_or_eq_of_le hyx with hlt | heq
          · exact Or.inl hlt
          · exact Or.inr ⟨heq.symm, hR z (List.mem_cons_self _ _)⟩
        · rcases hQhead z hz2 with hlt | ⟨heq, hRyz⟩
          · exact Or.inl (lt_of_lt_of_le hlt hyx)
          · have hzx : key z ≤ key x := le_of_eq heq.symm |>.trans hyx
            rcases lt_or_eq_of_le hzx with hlt | heq2
            · exact Or.inl hlt
            · exact Or.inr ⟨heq2.symm, hR z (List.mem_cons_of_mem _ hz2)⟩

/-- A stable sort whose comparator is exactly a key comparison on the
list's elements produces a weakly-descending list in which tied elements
keep any pairwise relation they had in the input (helper). -/
theorem stableSortPairwise {α : Type} (later : α → α → Bool) (key : α → ℚ)
    (R : α → α → Prop) :
    ∀ l : List α,
      List.Pairwise R l →
      (∀ a ∈ l, ∀ b ∈ l, later a b = decide (key a < key b)) →
      List.Pairwise (fun a b => key b < key a ∨ (key a = key b ∧ R a b))
        (stableSort later l) := by
  intro l
  induction l with
  | nil =>
      intro _ _
      simp [stableSort]
  | cons x xs ih =>
      intro hR hcons
      rcases List.pairwise_cons.mp hR with ⟨hRhead, hRtail⟩
      simp only [stableSort]
      refine stableInsertPairwise later key R x (stableSort later xs) ?_ ?_ ?_
      · exact ih hRtail (fun a ha b hb => hcons a (List.mem_cons_of_mem _ ha)
          b (List.mem_cons_of_mem _ hb))
      · intro y hy
        exact hRhead y ((stableSort_mem later y xs).mp hy)
      · intro y hy
        exact hcons x (List.mem_cons_self _ _)
          y (List.mem_cons_of_mem _ ((stableSort_mem later y xs).mp hy))

/-- The keyword normalization is always a finite rational (helper). -/
theorem keywordNorm_isFin (k : List SearchResult) (r : SearchResult) :
    ∃ q, keywordNorm k r = JSNum.fin q := by
  rw [keywordNorm]
  split
  · rename_i hguard
    have hne : k ≠ [] := by
      intro h
      subst h
      simp [keywordMax, JSNum.ltB] at hguard
    rcases keywordMax_shape k hne with ⟨M, hM, _⟩
    rw [hM] at hguard ⊢
    have hMpos : 0 < M := by
      simp [JSNum.ltB] at hguard
      exact hguard
    refine ⟨(r.score).getD 0 / M, ?_⟩
    simp only [JSNum.div]
    rw [if_neg (ne_of_gt hMpos)]
  · exact ⟨0, rfl⟩

/-- Every vector-pass entry has a finite fused score when the vector
maximum is nonzero (helper). -/
theorem vectorPass_finScore (v : List SearchResult) (w : ℚ)
    (Hmax : vectorMax v ≠ JSNum.fin 0) :
    ∀ p ∈ vectorPass v w, ∃ q, (p.2).hybridScore = JSNum.fin q := by
  intro p hp
  rw [vectorPass] at hp
  refine @foldl_mapSet_preserve (Nat × SearchResult) (fun q => resultKey q.2)
    (fun q => vectorEntry w (vectorMax v) q.1 q.2)
    (fun e => ∃ q, e.hybridScore = JSNum.fin q) v.enum []
    (by intro q hq; simp at hq) ?_ p hp
  intro x hx
  have hxv : x.2 ∈ v := enumFrom_snd_mem v 0 x hx
  have hne : v ≠ [] := by
    intro h
    subst h
    simp at hxv
  rcases vectorMax_shape v hne with ⟨M, hM, _⟩
  have hM0 : M ≠ 0 := by
    intro h0
    rw [h0] at hM
    exact Hmax hM
  refine ⟨(x.2.certainty).getD 0 / M * w, ?_⟩
  show JSNum.mul (JSNum.div (JSNum.fin ((x.2.certainty).getD 0)) (vectorMax v))
    (JSNum.fin w) = _
  rw [hM]
  simp only [JSNum.div]
  rw [if_neg hM0]
  rfl

/-- A keyword step preserves finiteness of the fused scores (helper). -/
theorem keywordStep_finScore (k : List SearchResult) (kw : ℚ) :
    ∀ m i r, r ∈ k → (∀ p ∈ m, ∃ q, (p.2).hybridScore = JSNum.fin q) →
      ∀ p ∈ keywordStep k kw m i r, ∃ q, (p.2).hybridScore = JSNum.fin q := by
  intro m i r hr hm p hp
  rcases keywordNorm_isFin k r with ⟨qn, hqn⟩
  rcases hget : mapGet m (resultKey r) with _ | existing
  · simp only [keywordStep, hget] at hp
    rcases mapSet_mem _ _ _ p hp with rfl | hp2
    · refine ⟨qn * kw, ?_⟩
      show JSNum.mul (keywordNorm k r) (JSNum.fin kw) = _
      rw [hqn]
      rfl
    · exact hm p hp2
  · simp only [keywordStep, hget] at hp
    rcases mapSet_mem _ _ _ p hp with rfl | hp2
    · rcases hm _ (mapGet_mem _ _ _ hget) with ⟨qe, hqe⟩
      refine ⟨qe + qn * kw, ?_⟩
      show JSNum.add existing.hybridScore
        (JSNum.mul (keywordNorm k r) (JSNum.fin kw)) = _
      rw [hqn, hqe]
      rfl
    · exact hm p hp2

/-- Every entry of the full fusion map has a finite fused score when the
vector maximum is nonzero (helper). -/
theorem fuseMap_finScore (v k : List SearchResult) (w kw : ℚ)
    (Hmax : vectorMax v ≠ JSNum.fin 0) :
    ∀ p ∈ keywordPass k kw (vectorPass v w), ∃ q, (p.2).hybridScore = JSNum.fin q := by
  intro p hp
  rw [keywordPass] at hp
  exact keywordFold_preserve k kw (fun e => ∃ q, e.hybridScore = JSNum.fin q)
    (keywordStep_finScore k kw) k.enum (vectorPass v w)
    (fun q hq => enumFrom_snd_mem k 0 q hq) (vectorPass_finScore v w Hmax) p hp

/-- A key on which `Map.get` fails binds nothing in the map (helper). -/
theorem mapGet_none_fresh (m : List (String × FusedResult)) (key : String)
    (h : mapGet m key = none) : ∀ p ∈ m, p.1 ≠ key := by
  intro p hp hpk
  rw [mapGet, Option.map_eq_none'] at h
  have := List.find?_eq_none.mp h p hp
  simp [hpk] at this

/-- Setting a present key rewrites the map in place (helper). -/
theorem mapSet_present (m : List (String × FusedResult)) (key : String)
    (v : FusedResult) (h : (m.find? (fun p => p.1 == key)).isSome) :
    mapSet m key v = m.map (fun p => if p.1 == key then (key, v) else p) := by
  rw [mapSet, if_pos h]

/-- In a map with nodup keys, a key binds at most one value (helper). -/
theorem nodup_key_eq :
    ∀ (m : List (String × FusedResult)), (m.map Prod.fst).Nodup →
      ∀ (key : String) (a b : FusedResult), (key, a) ∈ m → (key, b) ∈ m → a = b := by
  intro m
  induction m with
  | nil =>
      intro _ key a b ha _
      simp at ha
  | cons p m ih =>
      intro hnd key a b ha hb
      simp only [List.map_cons, List.nodup_cons] at hnd
      rcases List.mem_cons.mp ha with ha1 | ha2
      · rcases List.mem_cons.mp hb with hb1 | hb2
        · have := ha1.trans hb1.symm
          injection this
        · exfalso
          apply hnd.1
          have hp1 : p.1 = key := by rw [← ha1]
          rw [hp1]
          simpa using List.mem_map_of_mem Prod.fst hb2
      · rcases List.mem_cons.mp hb with hb1 | hb2
        · exfalso
          apply hnd.1
          have hp1 : p.1 = key := by rw [← hb1]
          rw [hp1]
          simpa using List.mem_map_of_mem Prod.fst ha2
        · exact ih hnd.2 key a b ha2 hb2

/-- The tie order only reads the vector rank, and the keyword rank of
keyword-only entries; it transfers along any update preserving those
(helper). -/
theorem rankTieOrder_imp (a b a' b' : FusedResult)
    (hva : a'.vectorRank = a.vectorRank) (hvb : b'.vectorRank = b.vectorRank)
    (hka : a.vectorRank = none → (a'.keywordRank).getD 0 = (a.keywordRank).getD 0)
    (hkb : b.vectorRank = none → (b'.keywordRank).getD 0 = (b.keywordRank).getD 0)
    (h : rankTieOrder a b) : rankTieOrder a' b' := by
  rcases hav : a.vectorRank with _ | i
  · rcases hbv : b.vectorRank with _ | j
    · have h2 : (a.keywordRank).getD 0 < (b.keywordRank).getD 0 := by
        simpa [rankTieOrder, hav, hbv] using h
      simp only [rankTieOrder, hva, hvb, hav, hbv]
      rw [hka hav, hkb hbv]
      exact h2
    · exfalso
      simpa [rankTieOrder, hav, hbv] using h
  · rcases hbv : b.vectorRank with _ | j
    · simp [rankTieOrder, hva, hvb, hav, hbv]
    · have h2 : i < j := by simpa [rankTieOrder, hav, hbv] using h
      simpa [rankTieOrder, hva, hvb, hav, hbv] using h2

/-- A fold of `Map.set` operations with pairwise-fresh keys appends the
bindings in order (helper). -/
theorem foldl_mapSet_append {β : Type} (key : β → String) (val : β → FusedResult) :
    ∀ (l : List β) (acc : List (String × FusedResult)),
      (∀ x ∈ l, ∀ p ∈ acc, p.1 ≠ key x) →
      List.Pairwise (fun a b => key a ≠ key b) l →
      l.foldl (fun m x => mapSet m (key x) (val x)) acc =
        acc ++ l.map (fun x => (key x, val x)) := by
  intro l
  induction l with
  | nil =>
      intro acc _ _
      simp
  | cons x l ih =>
      intro acc hfresh hnd
      rcases List.pairwise_cons.mp hnd with ⟨hhead, htail⟩
      simp only [List.foldl_cons, List.map_cons]
      rw [mapSet_fresh acc (key x) (val x)
        (fun p hp => hfresh x (List.mem_cons_self _ _) p hp)]
      have hfresh2 : ∀ y ∈ l, ∀ p ∈ acc ++ [(key x, val x)], p.1 ≠ key y := by
        intro y hy p hp
        rcases List.mem_append.mp hp with hp | hp
        · exact hfresh y (List.mem_cons_of_mem _ hy) p hp
        · have hpx : p = (key x, val x) := List.mem_singleton.mp hp
          rw [hpx]
          exact hhead y hy
      rw [ih (acc ++ [(key x, val x)]) hfresh2 htail, List.append_assoc]
      rfl

/-- With nodup vector keys the vector pass simply lists one entry per
vector result, in order (helper). -/
theorem vectorPass_eq (v : List SearchResult) (w : ℚ)
    (hnd : (v.map resultKey).Nodup) :
    vectorPass v w =
      v.enum.map (fun x => (resultKey x.2, vectorEntry w (vectorMax v) x.1 x.2)) := by
  have hnd2 : List.Pairwise (fun a b => resultKey a ≠ resultKey b) v :=
    List.pairwise_map.mp hnd
  have happ := @foldl_mapSet_append (Nat × SearchResult) (fun x => resultKey x.2)
    (fun x => vectorEntry w (vectorMax v) x.1 x.2) v.enum []
    (by intro x hx p hp; simp at hp)
    (enumFrom_pairwise_of (fun a b => resultKey a ≠ resultKey b) v 0 hnd2)
  rw [vectorPass]
  simpa using happ

/-- The keyword pass preserves the map's tie order: merges update vector
entries in place (keeping their position and vector rank) and fresh keys
append keyword-only entries in keyword-rank order (helper). -/
theorem keywordFold_tieOrder (k : List SearchResult) (kw : ℚ) :
    ∀ (ps : List (Nat × SearchResult)) (m : List (String × FusedResult)),
      List.Pairwise (fun p q => p.1 < q.1) ps →
      List.Pairwise (fun p q => resultKey p.2 ≠ resultKey q.2) ps →
      (m.map Prod.fst).Nodup →
      (∀ x ∈ m, (x.2).vectorRank = none →
        ∀ p ∈ ps, ((x.2).keywordRank).getD 0 < p.1 + 1 ∧ x.1 ≠ resultKey p.2) →
      List.Pairwise rankTieOrder (m.map Prod.snd) →
      List.Pairwise rankTieOrder
        ((ps.foldl (fun acc q => keywordStep k kw acc q.1 q.2) m).map Prod.snd) := by
  intro ps
  induction ps with
  | nil =>
      intro m _ _ _ _ hm
      simpa using hm
  | cons q ps ih =>
      intro m hidx hkeys hnd hnone hm
      rcases List.pairwise_cons.mp hidx with ⟨hidxhead, hidxtail⟩
      rcases List.pairwise_cons.mp hkeys with ⟨hkeyshead, hkeystail⟩
      simp only [List.foldl_cons]
      rcases hget : mapGet m (resultKey q.2) with _ | existing
      · have hfresh := mapGet_none_fresh m (resultKey q.2) hget
        have hstep : keywordStep k kw m q.1 q.2 =
            m ++ [(resultKey q.2, FusedResult.mk q.2
              (JSNum.mul (keywordNorm k q.2) (JSNum.fin kw)) (JSNum.fin 0)
              (keywordNorm k q.2) none (some (q.1 + 1)))] := by
          simp only [keywordStep, hget]
          exact mapSet_of_get_none m (resultKey q.2) _ hget
        rw [hstep]
        apply ih _ hidxtail hkeystail
        · rw [List.map_append]
          simp only [List.map_cons, List.map_nil]
          rw [List.nodup_append]
          refine ⟨hnd, List.nodup_singleton _, ?_⟩
          intro a ha hb
          rcases List.mem_map.mp ha with ⟨p, hpm, rfl⟩
          exact hfresh p hpm (by simpa using hb)
        · intro x hx hxnone p hp
          rcases List.mem_append.mp hx with hx | hx
          · exact hnone x hx hxnone p (List.mem_cons_of_mem _ hp)
          · have hxe := List.mem_singleton.mp hx
            subst hxe
            refine ⟨?_, hkeyshead p hp⟩
            simpa using Nat.succ_lt_succ (hidxhead p hp)
        · rw [List.map_append]
          simp only [List.map_cons, List.map_nil]
          rw [List.pairwise_append]
          refine ⟨hm, List.pairwise_singleton _ _, ?_⟩
          intro a ha b hb
          have hbe := List.mem_singleton.mp hb
          subst hbe
          rcases List.mem_map.mp ha with ⟨x, hxm, rfl⟩
          rcases hax : (x.2).vectorRank with _ | i
          · have hlt := (hnone x hxm hax q (List.mem_cons_self _ _)).1
            simp only [rankTieOrder, hax]
            simpa using hlt
          · simp [rankTieOrder, hax]
      · have hisSome : (m.find? (fun p => p.1 == resultKey q.2)).isSome := by
          rw [mapGet] at hget
          rcases Option.map_eq_some'.mp hget with ⟨p0, hp0, _⟩
          rw [hp0]
          rfl
        have hexmem : (resultKey q.2, existing) ∈ m := mapGet_mem _ _ _ hget
        have hexvec : existing.vectorRank ≠ none := by
          intro hno
          exact (hnone (resultKey q.2, existing) hexmem hno q
            (List.mem_cons_self _ _)).2 rfl
        have hyeq : ∀ y ∈ m, y.1 = resultKey q.2 → y.2 = existing := by
          intro y hym hy1
          apply nodup_key_eq m hnd (resultKey q.2) y.2 existing
          · rw [← hy1]
            exact hym
          · exact hexmem
        have hstep : keywordStep k kw m q.1 q.2 =
            m.map (fun p => if p.1 == resultKey q.2 then (resultKey q.2,
              FusedResult.mk existing.base
                (JSNum.add existing.hybridScore
                  (JSNum.mul (keywordNorm k q.2) (JSNum.fin kw)))
                existing.vectorScore (keywordNorm k q.2) existing.vectorRank
                (some (q.1 + 1))) else p) := by
          simp only [keywordStep, hget]
          exact mapSet_present m (resultKey q.2) _ hisSome
        rw [hstep]
        have hvec : ∀ y ∈ m,
            ((fun p => if p.1 == resultKey q.2 then (resultKey q.2,
              FusedResult.mk existing.base
                (JSNum.add existing.hybridScore
                  (JSNum.mul (keywordNorm k q.2) (JSNum.fin kw)))
                existing.vectorScore (keywordNorm k q.2) existing.vectorRank
                (some (q.1 + 1))) else p) y).2.vectorRank = (y.2).vectorRank := by
          intro y hym
          dsimp only
          by_cases hb : y.1 == resultKey q.2
          · rw [if_pos hb]
            rw [hyeq y hym (eq_of_beq hb)]
          · rw [if_neg hb]
        have hkw : ∀ y ∈ m, (y.2).vectorRank = none →
            ((fun p => if p.1 == resultKey q.2 then (resultKey q.2,
              FusedResult.mk existing.base
                (JSNum.add existing.hybridScore
                  (JSNum.mul (keywordNorm k q.2) (JSNum.fin kw)))
                existing.vectorScore (keywordNorm k q.2) existing.vectorRank
                (some (q.1 + 1))) else p) y).2.keywordRank = (y.2).keywordRank := by
          intro y hym hynone
          dsimp only
          by_cases hb : y.1 == resultKey q.2
          · exfalso
            apply hexvec
            rw [← hyeq y hym (eq_of_beq hb)]
            exact hynone
          · rw [if_neg hb]
        apply ih _ hidxtail hkeystail
        · rw [List.map_map]
          have hfst : ∀ p ∈ m,
              (Prod.fst ∘ (fun p => if p.1 == resultKey q.2 then (resultKey q.2,
                FusedResult.mk existing.base
                  (JSNum.add existing.hybridScore
                    (JSNum.mul (keywordNorm k q.2) (JSNum.fin kw)))
                  existing.vectorScore (keywordNorm k q.2) existing.vectorRank
                  (some (q.1 + 1))) else p)) p = Prod.fst p := by
            intro p hp
            by_cases hb : p.1 == resultKey q.2
            · simp only [Function.comp_apply, if_pos hb]
              exact (eq_of_beq hb).symm
            · simp only [Function.comp_apply, if_neg hb]
          rw [List.map_congr_left hfst]
          exact hnd
        · intro x hx hxnone p hp
          rcases List.mem_map.mp hx with ⟨y, hym, rfl⟩
          by_cases hb : y.1 == resultKey q.2
          · exfalso
            rw [if_pos hb] at hxnone
            apply hexvec
            rw [← hyeq y hym (eq_of_beq hb)]
            have : existing.vectorRank = none := hxnone
            rw [hyeq y hym (eq_of_beq hb)]
            exact this
          · rw [if_neg hb] at hxnone ⊢
            exact hnone y hym hxnone p (List.mem_cons_of_mem _ hp)
        · rw [List.map_map, List.pairwise_map]
          have hm2 : List.Pairwise (fun a b => rankTieOrder a.2 b.2) m :=
            List.pairwise_map.mp hm
          refine List.Pairwise.imp_of_mem ?_ hm2
          intro a b ham hbm hab
          refine rankTieOrder_imp a.2 b.2 _ _ (hvec a ham) (hvec b hbm) ?_ ?_ hab
          · intro hnonea
            exact congrArg (fun o => Option.getD o 0) (hkw a ham hnonea)
          · intro hnoneb
            exact congrArg (fun o => Option.getD o 0) (hkw b hbm hnoneb)

/-- Claim C2 (amended): when no `NaN` arises (nonzero vector maximum) and
each input list keys its results distinctly, the fusion output has finite
fused scores, is sorted weakly descending by fused score with ties broken
by the map's insertion order — vector-list entries first, in vector-rank
order, then keyword-only entries in keyword-rank order — and is truncated
to `limit`.  This holds for every `vectorWeight` and every `limit`. -/
theorem fuseSearchResults_sorted (v k : List SearchResult) (w : ℚ) (limit : Nat)
    (Hmax : vectorMax v ≠ JSNum.fin 0)
    (Hvkeys : (v.map resultKey).Nodup) (Hkkeys : (k.map resultKey).Nodup) :
    (∀ e ∈ fuseSearchResults v k w limit, ∃ q, e.hybridScore = JSNum.fin q) ∧
      List.Pairwise (fun a b =>
        hybridQ b < hybridQ a ∨ (hybridQ a = hybridQ b ∧ rankTieOrder a b))
        (fuseSearchResults v k w limit) ∧
      (fuseSearchResults v k w limit).length ≤ limit := by
  have hveq := vectorPass_eq v w Hvkeys
  have hnd0 : ((vectorPass v w).map Prod.fst).Nodup := by
    have h1 : ((v.enum.map (fun x =>
        (resultKey x.2, vectorEntry w (vectorMax v) x.1 x.2))).map Prod.fst) =
        v.enum.map (fun x => resultKey x.2) := by
      rw [List.map_map]
      rfl
    rw [hveq, h1]
    exact List.pairwise_map.mpr
      (enumFrom_pairwise_of (fun a b => resultKey a ≠ resultKey b) v 0
        (List.pairwise_map.mp Hvkeys))
  have hnone0 : ∀ x ∈ vectorPass v w, (x.2).vectorRank = none →
      ∀ p ∈ k.enum, ((x.2).keywordRank).getD 0 < p.1 + 1 ∧ x.1 ≠ resultKey p.2 := by
    intro x hx hxnone p hp
    exfalso
    rw [hveq] at hx
    rcases List.mem_map.mp hx with ⟨y, hym, rfl⟩
    simp [vectorEntry] at hxnone
  have hm0 : List.Pairwise rankTieOrder ((vectorPass v w).map Prod.snd) := by
    rw [hveq, List.map_map, List.pairwise_map]
    exact List.Pairwise.imp
      (fun hxy => by
        simp only [Function.comp_apply, rankTieOrder, vectorEntry]
        omega)
      (enumFrom_fst_pairwise v 0)
  have htie : List.Pairwise rankTieOrder
      ((keywordPass k (1 - w) (vectorPass v w)).map Prod.snd) := by
    rw [keywordPass]
    exact keywordFold_tieOrder k (1 - w) k.enum (vectorPass v w)
      (enumFrom_fst_pairwise k 0)
      (enumFrom_pairwise_of (fun a b => resultKey a ≠ resultKey b) k 0
        (List.pairwise_map.mp Hkkeys))
      hnd0 hnone0 hm0
  have hfin : ∀ e ∈ (keywordPass k (1 - w) (vectorPass v w)).map Prod.snd,
      ∃ q, e.hybridScore = JSNum.fin q := by
    intro e he
    rcases List.mem_map.mp he with ⟨p, hp, rfl⟩
    exact fuseMap_finScore v k w (1 - w) Hmax p hp
  have hcons : ∀ a ∈ (keywordPass k (1 - w) (vectorPass v w)).map Prod.snd,
      ∀ b ∈ (keywordPass k (1 - w) (vectorPass v w)).map Prod.snd,
      fuseLater a b = decide (hybridQ a < hybridQ b) := by
    intro a ha b hb
    rcases hfin a ha with ⟨qa, hqa⟩
    rcases hfin b hb with ⟨qb, hqb⟩
    have hka : hybridQ a = qa := by simp [hybridQ, hqa]
    have hkb : hybridQ b = qb := by simp [hybridQ, hqb]
    simp only [fuseLater]
    rw [hqa, hqb, hka, hkb]
    have hsub : JSNum.sub (JSNum.fin qb) (JSNum.fin qa) = JSNum.fin (qb + -qa) := rfl
    rw [hsub]
    have hlt : JSNum.ltB (JSNum.fin 0) (JSNum.fin (qb + -qa)) =
        decide ((0:ℚ) < qb + -qa) := rfl
    rw [hlt, decide_eq_decide]
    constructor
    · intro h
      linarith
    · intro h
      linarith
  have hsorted := stableSortPairwise fuseLater hybridQ rankTieOrder
    ((keywordPass k (1 - w) (vectorPass v w)).map Prod.snd) htie hcons
  refine ⟨?_, ?_, ?_⟩
  · intro e he
    exact hfin e ((stableSort_mem fuseLater e _).mp (List.take_subset _ _ he))
  · exact hsorted.sublist (List.take_sublist _ _)
  · simp only [fuseSearchResults]
    rw [List.length_take]
    exact min_le_left _ _

/-- Witness for `fuseSearchResults_sorted` at a concrete input. -/
theorem fuseSearchResults_sorted_witness :
    (fuseSearchResults [⟨"f", 1, 0, some (1/2), none⟩] [⟨"g", 2, 3, none, some 2⟩]
      (1/2) 5).length ≤ 5 :=
  (fuseSearchResults_sorted [⟨"f", 1, 0, some (1/2), none⟩]
    [⟨"g", 2, 3, none, some 2⟩] (1/2) 5
    (by with_unfolding_all decide) (by with_unfolding_all decide)
    (by with_unfolding_all decide)).2.2

/-- Claim C2 (counterexample): with a nonempty vector list of maximum
certainty 0, the fused score of the vector entry is `NaN` (JavaScript
`0/0`), and the output is not ordered descending by fused score: the `NaN`
entry stays in front of a keyword entry with positive fused score, yet
`NaN` is neither greater than nor equal to that score (`NaN` comparisons
are all false), so the claim fails on this pair of input lists. -/
theorem fuseSearchResults_nan_order_cex :
    (fuseSearchResults [⟨"f", 1, 0, some 0, none⟩] [⟨"g", 1, 0, none, some 5⟩]
        (3/10) 5).map FusedResult.hybridScore = [JSNum.nan, JSNum.fin (7/10)] ∧
      JSNum.ltB (JSNum.fin (7/10)) JSNum.nan = false ∧
      JSNum.nan ≠ JSNum.fin (7/10) := by
  with_unfolding_all decide
